import Mathlib

/-!
# Projecteur: the input-map configuration model and the device-connection map

A shallow embedding of `src/inputmapconfig.cc` (class `InputMapConfigModel`) and of
the connection map declared in `src/spotlight.h`.

Conventions of the embedding.

* `m_configItems` is a Qt sequence container; it is a `List` here.
* `InputMapConfig` is a `std::map` keyed by `KeyEventSequence`; a `std::map` value is
  the list of its entries in iteration order (`StdMap`), and the representation
  invariant of the C++ type (keys strictly ascending) is the predicate `StdMap.WF`.
* The element type `E` of a `KeyEventSequence` and the type `N` standing for
  `NativeKeySequence` are declared in headers that are not part of the sources at
  hand; they are parameters. `E` carries the strict total order that the map key
  needs, and sequences are compared lexicographically, as `std::vector` does.
* Row numbers are C++ `int`; they are `Int` here. The code only compares them,
  decrements them and subtracts two of them, and the model agrees with the code
  wherever that arithmetic stays within `int`. Statements about lists of row numbers
  therefore bound the rows (inside `[0, size)`, or non-negative and at most
  `2147483647`), which keeps every difference and every decrement in range and every
  `removeAt` on an existing index.
* Signals of the Qt item model (`beginRemoveRows`, `dataChanged`, ...) do not change
  the data and are left out.
-/

namespace Projecteur

/-! ## `std::map` -/

/-- Value of a C++ `std::map<K, V>`: the entries in iteration order. -/
structure StdMap (K V : Type) where
  entries : List (K × V)
deriving DecidableEq

namespace StdMap

variable {K V : Type}

/-- Representation invariant of `std::map`: iteration visits the keys in strictly
ascending order (so no key occurs twice). -/
def WF [LT K] (m : StdMap K V) : Prop :=
  (m.entries.map Prod.fst).Sorted (· < ·)

instance decidableWF [LT K] [DecidableRel (fun a b : K => a < b)] (m : StdMap K V) :
    Decidable m.WF :=
  inferInstanceAs (Decidable ((m.entries.map Prod.fst).Sorted (· < ·)))

/-- The default-constructed map. -/
def empty : StdMap K V := ⟨[]⟩

/-- Member `size()`. -/
def size (m : StdMap K V) : Nat := m.entries.length

/-- The keys in iteration order. -/
def keys (m : StdMap K V) : List K := m.entries.map Prod.fst

/-- Insertion step of `std::map::emplace` on the entry list: the new entry goes
before the first greater key, and nothing is inserted when an equivalent key
(neither less nor greater) is already present. -/
def emplaceEntries [LinearOrder K] (k : K) (v : V) : List (K × V) → List (K × V)
  | [] => [(k, v)]
  | (k1, v1) :: rest =>
    if k < k1 then (k, v) :: (k1, v1) :: rest
    else if k1 < k then (k1, v1) :: emplaceEntries k v rest
    else (k1, v1) :: rest

/-- Member `emplace(k, v)`: inserts only when no equivalent key is present. -/
def emplace [LinearOrder K] (m : StdMap K V) (k : K) (v : V) : StdMap K V :=
  ⟨emplaceEntries k v m.entries⟩

/-- Member `find(k)`: the value stored under the key equivalent to `k`, if any. -/
def find [LinearOrder K] (m : StdMap K V) (k : K) : Option V :=
  (m.entries.find? (fun p => decide (¬ p.1 < k ∧ ¬ k < p.1))).map Prod.snd

/-- Member `erase(k)`: drops the entry with a key equivalent to `k`. -/
def erase [LinearOrder K] (m : StdMap K V) (k : K) : StdMap K V :=
  ⟨m.entries.filter (fun p => decide (¬ (¬ p.1 < k ∧ ¬ k < p.1)))⟩

/-- Entry-list step of `std::map::insert_or_assign(k, v)` (what `m[k] = v` does): the
value under an equivalent key is overwritten, otherwise the entry is inserted in key
order. -/
def insertOrAssignEntries [LinearOrder K] (k : K) (v : V) : List (K × V) → List (K × V)
  | [] => [(k, v)]
  | (k1, v1) :: rest =>
    if k < k1 then (k, v) :: (k1, v1) :: rest
    else if k1 < k then (k1, v1) :: insertOrAssignEntries k v rest
    else (k1, v) :: rest

/-- Member `insert_or_assign(k, v)`. -/
def insertOrAssign [LinearOrder K] (m : StdMap K V) (k : K) (v : V) : StdMap K V :=
  ⟨insertOrAssignEntries k v m.entries⟩

end StdMap

/-! ## Data model of `inputmapconfig.cc` -/

/-- A `KeyEventSequence` is a sequence container (the code calls `size()` on it and
compares two of them with `!=`); `E` is its element type. -/
abbrev KeyEventSequence (E : Type) := List E

/-- A `MappedInputAction` holds one `NativeKeySequence` (member `sequence`). -/
structure MappedInputAction (N : Type) where
  sequence : N
deriving DecidableEq

/-- An `InputMapConfig` maps `KeyEventSequence` to `MappedInputAction`. -/
abbrev InputMapConfig (E N : Type) := StdMap (KeyEventSequence E) (MappedInputAction N)

/-- One row of the table model (`InputMapModelItem`), with the two members that
`inputmapconfig.cc` reads and writes. -/
structure InputMapModelItem (E N : Type) where
  deviceSequence : KeyEventSequence E
  mappedSequence : N
deriving DecidableEq

/-- Modelled from the spec: class `InputMapper`, of which the sources at hand only
call `setConfiguration` and `configuration`. It stores the active configuration;
`received` records every configuration handed to `setConfiguration`, latest first. -/
structure InputMapper (E N : Type) where
  m_config : InputMapConfig E N
  received : List (InputMapConfig E N)
deriving DecidableEq

namespace InputMapper

variable {E N : Type}

/-- Modelled from the spec: `InputMapper::setConfiguration` replaces the active set
as a whole. -/
def setConfiguration (im : InputMapper E N) (config : InputMapConfig E N) :
    InputMapper E N :=
  { m_config := config, received := config :: im.received }

/-- Modelled from the spec: `InputMapper::configuration` returns the active set. -/
def configuration (im : InputMapper E N) : InputMapConfig E N := im.m_config

end InputMapper

/-- A `QModelIndex`, as far as the model reads it: row and column. -/
structure QModelIndex where
  row : Int
  column : Int
deriving DecidableEq

/-- The default-constructed (invalid) index `QModelIndex()`. -/
def QModelIndex.invalid : QModelIndex := ⟨-1, -1⟩

/-- State of an `InputMapConfigModel`: the mapper pointer (`none` is the null
pointer) and the rows. -/
structure InputMapConfigModel (E N : Type) where
  m_inputMapper : Option (InputMapper E N)
  m_configItems : List (InputMapModelItem E N)
deriving DecidableEq

/-- Member `removeAt(i)` of the Qt sequence: removes the element at index `i`; an
index outside `[0, size)` removes nothing. -/
def removeAt {α : Type} (items : List α) (i : Int) : List α :=
  if 0 ≤ i ∧ i < items.length then items.eraseIdx i.toNat else items

/-- The loop `for (int i = toRow; i >= fromRow && i < size; --i) removeAt(i)`, with
`i` the current value of the loop variable. The first argument bounds the number of
iterations; `removeRows` passes `toRow - fromRow + 1`, which the loop never exceeds. -/
def removeLoop {α : Type} (fromRow : Int) : Nat → Int → List α → List α
  | 0, _, items => items
  | k + 1, i, items =>
    if fromRow ≤ i ∧ i < items.length then
      removeLoop fromRow k (i - 1) (removeAt items i)
    else items

/-- Effect of `removeConfigItemRows(int fromRow, int toRow)` on the rows. -/
def removeRows {α : Type} (items : List α) (fromRow toRow : Int) : List α :=
  if fromRow > toRow then items
  else removeLoop fromRow (toRow - fromRow + 1).toNat toRow items

namespace InputMapConfigModel

variable {E N : Type}

/-- Member function `InputMapConfigModel::rowCount`. -/
def rowCount (s : InputMapConfigModel E N) (parent : QModelIndex) : Int :=
  if parent = QModelIndex.invalid then (s.m_configItems.length : Int) else 0

/-- Body of the loop in `configuration`: rows with an empty input sequence are
skipped, the others are emplaced. -/
def configurationStep [LinearOrder E] (config : InputMapConfig E N)
    (item : InputMapModelItem E N) : InputMapConfig E N :=
  if item.deviceSequence.length = 0 then config
  else config.emplace item.deviceSequence ⟨item.mappedSequence⟩

/-- Member function `InputMapConfigModel::configuration`. -/
def configuration [LinearOrder E] (s : InputMapConfigModel E N) : InputMapConfig E N :=
  s.m_configItems.foldl configurationStep StdMap.empty

/-- Member function `InputMapConfigModel::setConfiguration`. -/
def setConfiguration (s : InputMapConfigModel E N) (config : InputMapConfig E N) :
    InputMapConfigModel E N :=
  { s with
    m_configItems :=
      config.entries.foldl (fun items item => items ++ [⟨item.1, item.2.sequence⟩]) [] }

/-- Member function `InputMapConfigModel::configureInputMapper`. -/
def configureInputMapper [LinearOrder E] (s : InputMapConfigModel E N) :
    InputMapConfigModel E N :=
  match s.m_inputMapper with
  | some im => { s with m_inputMapper := some (im.setConfiguration s.configuration) }
  | none => s

/-- Member function `InputMapConfigModel::removeConfigItemRows(int fromRow, int toRow)`. -/
def removeConfigItemRowsRange (s : InputMapConfigModel E N) (fromRow toRow : Int) :
    InputMapConfigModel E N :=
  { s with m_configItems := removeRows s.m_configItems fromRow toRow }

/-- Member function `InputMapConfigModel::addConfigItem`: the new state and the returned row. -/
def addConfigItem [LinearOrder E] (s : InputMapConfigModel E N)
    (cfg : InputMapModelItem E N) : InputMapConfigModel E N × Int :=
  let row : Int := s.m_configItems.length
  let s1 := { s with m_configItems := s.m_configItems ++ [cfg] }
  (if cfg.deviceSequence.length ≠ 0 then s1.configureInputMapper else s1, row)

/-- One step of the loop over the descending row list in
`removeConfigItemRows(std::vector<int>)`; the state is the model together with
`seq_first` and `seq_last`. -/
def removeStep (acc : InputMapConfigModel E N × Int × Int) (it : Int) :
    InputMapConfigModel E N × Int × Int :=
  if acc.2.1 - it > 1 then (acc.1.removeConfigItemRowsRange acc.2.1 acc.2.2, it, it)
  else (acc.1, it, acc.2.2)

/-- Member function `InputMapConfigModel::removeConfigItemRows(std::vector<int> rows)`.
`std::sort(rows.rbegin(), rows.rend())` leaves `rows` in descending order. -/
def removeConfigItemRows [LinearOrder E] (s : InputMapConfigModel E N)
    (rows : List Int) : InputMapConfigModel E N :=
  if rows.isEmpty then s
  else
    match rows.insertionSort (· ≥ ·) with
    | [] => s
    | front :: rest =>
      let acc := rest.foldl removeStep (s, front, front)
      (acc.1.removeConfigItemRowsRange acc.2.1 acc.2.2).configureInputMapper

/-- Member function `InputMapConfigModel::setInputSequence`. The subscript `m_configItems[index.row()]`
is guarded by `index.row() < size` only; with a negative row it is out of bounds
and the call has no defined result (`none`). -/
def setInputSequence [LinearOrder E] (s : InputMapConfigModel E N)
    (index : QModelIndex) (kes : KeyEventSequence E) :
    Option (InputMapConfigModel E N) :=
  if index.row < s.m_configItems.length then
    if index.row < 0 then none
    else
      match s.m_configItems[index.row.toNat]? with
      | none => none
      | some c =>
        if c.deviceSequence ≠ kes then
          some (configureInputMapper
            { s with m_configItems :=
                s.m_configItems.set index.row.toNat { c with deviceSequence := kes } })
        else some s
  else some s

/-- Member function `InputMapConfigModel::setKeySequence`; the subscript is as in
`setInputSequence`. -/
def setKeySequence [LinearOrder E] [DecidableEq N] (s : InputMapConfigModel E N)
    (index : QModelIndex) (ks : N) : Option (InputMapConfigModel E N) :=
  if index.row < s.m_configItems.length then
    if index.row < 0 then none
    else
      match s.m_configItems[index.row.toNat]? with
      | none => none
      | some c =>
        if c.mappedSequence ≠ ks then
          some (configureInputMapper
            { s with m_configItems :=
                s.m_configItems.set index.row.toNat { c with mappedSequence := ks } })
        else some s
  else some s

/-- Member function `InputMapConfigModel::setInputMapper`. -/
def setInputMapper (s : InputMapConfigModel E N) (im : Option (InputMapper E N)) :
    InputMapConfigModel E N :=
  match im with
  | some m => setConfiguration { s with m_inputMapper := some m } m.configuration
  | none => { s with m_inputMapper := none }

end InputMapConfigModel

/-! ## The connection map of `Spotlight` (`spotlight.h`) -/

/-- Modelled from the spec: a `DeviceConnection` is the aggregate of a `DeviceId`
and the set of its currently open sub-device connections, each named here by the
path it was opened from. `D` stands for `DeviceId` and `P` for a device path; both
are declared outside the sources at hand. -/
structure DeviceConnection (D P : Type) where
  id : D
  subs : List P
deriving DecidableEq

/-- State of `Spotlight`, as far as the connection bookkeeping goes: the member
`std::map<DeviceId, std::shared_ptr<DeviceConnection>> m_deviceConnections`. -/
structure Spotlight (D P : Type) where
  m_deviceConnections : StdMap D (DeviceConnection D P)
deriving DecidableEq

/-- The operations that change the connection set. -/
inductive SpotlightOp (D P : Type) where
  | connect (id : D) (path : P)
  | disconnect (path : P)
deriving DecidableEq

namespace Spotlight

variable {D P : Type}

/-- State after construction: no connection. -/
def init : Spotlight D P := ⟨StdMap.empty⟩

/-- Modelled from the spec: `Spotlight::connectSpotlightDevice` (its body is in
`spotlight.cc`, which is not among the sources at hand) in the `Connected` case. A
path that is already connected is left alone; otherwise the sub-device connection
is registered under its `DeviceId`, in the existing `DeviceConnection` when there is
one and in a new one when there is none. -/
def connectSpotlightDevice [LinearOrder D] [DecidableEq P] (s : Spotlight D P)
    (id : D) (path : P) : Spotlight D P :=
  if s.m_deviceConnections.entries.any (fun p => decide (path ∈ p.2.subs)) then s
  else
    match s.m_deviceConnections.find id with
    | some dc =>
      ⟨s.m_deviceConnections.insertOrAssign id { dc with subs := dc.subs ++ [path] }⟩
    | none => ⟨s.m_deviceConnections.emplace id ⟨id, [path]⟩⟩

/-- Modelled from the spec: `Spotlight::removeDeviceConnection` (body in
`spotlight.cc`). The sub-device connection opened from `path` is closed; a
`DeviceConnection` whose last sub-device connection closes is erased from the map. -/
def removeDeviceConnection [LinearOrder D] [DecidableEq P] (s : Spotlight D P)
    (path : P) : Spotlight D P :=
  ⟨s.m_deviceConnections.entries.foldl
    (fun m p =>
      if path ∈ p.2.subs then
        if (p.2.subs.erase path).isEmpty then m.erase p.1
        else m.insertOrAssign p.1 { p.2 with subs := p.2.subs.erase path }
      else m)
    s.m_deviceConnections⟩

/-- One connect or disconnect operation. -/
def step [LinearOrder D] [DecidableEq P] (s : Spotlight D P) :
    SpotlightOp D P → Spotlight D P
  | .connect id path => s.connectSpotlightDevice id path
  | .disconnect path => s.removeDeviceConnection path

/-- The state that a sequence of operations produces from the initial state. -/
def run [LinearOrder D] [DecidableEq P] (ops : List (SpotlightOp D P)) : Spotlight D P :=
  ops.foldl step init

end Spotlight

/-- The attached mapper holds the configuration that the rows describe. -/
def InputMapConfigModel.InSync {E N : Type} [LinearOrder E]
    (s : InputMapConfigModel E N) : Prop :=
  ∃ im, s.m_inputMapper = some im ∧ im.configuration = s.configuration

/-! ## Sample values -/

/-- A configuration with two entries. -/
def sampleConfig : InputMapConfig Nat Nat :=
  ⟨[([1], ⟨14⟩), ([1, 5], ⟨12⟩)]⟩

/-- A model without mapper whose rows hold a duplicate and an empty input
sequence. -/
def sampleModel : InputMapConfigModel Nat Nat :=
  ⟨none, [⟨[2], 10⟩, ⟨[], 11⟩, ⟨[1, 5], 12⟩, ⟨[2], 13⟩, ⟨[1], 14⟩]⟩

/-- A model without mapper whose non-empty input sequences are distinct. -/
def sampleDistinct : InputMapConfigModel Nat Nat :=
  ⟨none, [⟨[2], 10⟩, ⟨[], 11⟩, ⟨[1, 5], 12⟩, ⟨[], 13⟩, ⟨[1], 14⟩]⟩

/-- A model with a mapper attached that holds the model's configuration. -/
def sampleAttached : InputMapConfigModel Nat Nat :=
  ⟨some ⟨⟨[([1], ⟨14⟩), ([2], ⟨10⟩)]⟩, []⟩, [⟨[2], 10⟩, ⟨[], 11⟩, ⟨[1], 14⟩]⟩

/-! ## Reference description of row removal -/

/-- The elements of `l` whose index, counted from `off`, satisfies `Q`, in their
original order. -/
def keepFrom {α : Type} (Q : Nat → Bool) : Nat → List α → List α
  | _, [] => []
  | off, a :: l => if Q off then a :: keepFrom Q (off + 1) l else keepFrom Q (off + 1) l

/-- The rows whose index does not occur in `rows`, in their original order. -/
def rowsNotListed {α : Type} (items : List α) (rows : List Int) : List α :=
  (items.enum.filter (fun p => decide ((p.1 : Int) ∉ rows))).map Prod.snd

/-! ## Facts about `std::map` -/

namespace StdMap

variable {K V : Type} [LinearOrder K]

theorem equiv_iff (a k : K) : (¬ a < k ∧ ¬ k < a) ↔ a = k := by
  constructor
  · rintro ⟨h1, h2⟩
    exact le_antisymm (not_lt.1 h2) (not_lt.1 h1)
  · rintro rfl
    exact ⟨lt_irrefl _, lt_irrefl _⟩

theorem mem_keys_emplaceEntries (k : K) (v : V) (l : List (K × V)) (x : K) :
    x ∈ (emplaceEntries k v l).map Prod.fst ↔ x = k ∨ x ∈ l.map Prod.fst := by
  induction l with
  | nil => simp [emplaceEntries]
  | cons p rest ih =>
    obtain ⟨k1, v1⟩ := p
    simp only [emplaceEntries]
    split_ifs with h1 h2
    · simp
    · simp only [List.map_cons, List.mem_cons, ih]
      tauto
    · have hk : k1 = k := (equiv_iff k1 k).1 ⟨h2, h1⟩
      subst hk
      simp

theorem sorted_emplaceEntries (k : K) (v : V) (l : List (K × V))
    (h : (l.map Prod.fst).Sorted (· < ·)) :
    ((emplaceEntries k v l).map Prod.fst).Sorted (· < ·) := by
  induction l with
  | nil => simp [emplaceEntries]
  | cons p rest ih =>
    obtain ⟨k1, v1⟩ := p
    simp only [List.map_cons, List.sorted_cons] at h
    simp only [emplaceEntries]
    split_ifs with h1 h2
    · simp only [List.map_cons, List.sorted_cons, List.mem_cons]
      refine ⟨?_, h⟩
      rintro b (rfl | hb)
      · exact h1
      · exact lt_trans h1 (h.1 b hb)
    · simp only [List.map_cons, List.sorted_cons]
      refine ⟨?_, ih h.2⟩
      intro b hb
      rcases (mem_keys_emplaceEntries k v rest b).1 hb with rfl | hb
      · exact h2
      · exact h.1 b hb
    · simpa using h

theorem emplace_wf (m : StdMap K V) (k : K) (v : V) (h : m.WF) : (m.emplace k v).WF :=
  sorted_emplaceEntries k v m.entries h

theorem empty_wf : (empty : StdMap K V).WF := by
  simp [WF, empty]

/-- Emplacing a key above all present keys appends the entry. -/
theorem emplaceEntries_append (k : K) (v : V) (l : List (K × V))
    (h : ∀ x ∈ l.map Prod.fst, x < k) : emplaceEntries k v l = l ++ [(k, v)] := by
  induction l with
  | nil => rfl
  | cons p rest ih =>
    obtain ⟨k1, v1⟩ := p
    have hk : k1 < k := h k1 (by simp)
    have hrest : ∀ x ∈ rest.map Prod.fst, x < k := fun x hx => h x (by simp at hx ⊢; tauto)
    simp [emplaceEntries, hk, not_lt_of_gt hk, ih hrest]

/-- Emplacing a key that is present changes nothing. -/
theorem emplaceEntries_of_mem (k : K) (v : V) (l : List (K × V))
    (hs : (l.map Prod.fst).Sorted (· < ·)) (h : k ∈ l.map Prod.fst) :
    emplaceEntries k v l = l := by
  induction l with
  | nil => simp at h
  | cons p rest ih =>
    obtain ⟨k1, v1⟩ := p
    simp only [List.map_cons, List.sorted_cons] at hs
    simp only [List.map_cons, List.mem_cons] at h
    simp only [emplaceEntries]
    rcases h with rfl | h
    · simp
    · have hk : k1 < k := hs.1 k h
      simp [hk, not_lt_of_gt hk, ih hs.2 h]

theorem find_eq (m : StdMap K V) (k : K) :
    m.find k = (m.entries.find? (fun p => decide (p.1 = k))).map Prod.snd := by
  simp only [find, equiv_iff]

theorem find_emplaceEntries_of_not_mem (k : K) (v : V) (l : List (K × V))
    (h : k ∉ l.map Prod.fst) (x : K) :
    (emplaceEntries k v l).find? (fun p => decide (p.1 = x))
      = if x = k then some (k, v) else l.find? (fun p => decide (p.1 = x)) := by
  induction l with
  | nil =>
    by_cases hx : x = k
    · simp [emplaceEntries, hx]
    · simp [emplaceEntries, hx, Ne.symm hx]
  | cons p rest ih =>
    obtain ⟨k1, v1⟩ := p
    simp only [List.map_cons, List.mem_cons, not_or] at h
    have hk1 : ¬ k1 = k := fun e => h.1 e.symm
    simp only [emplaceEntries]
    by_cases h1 : k < k1
    · by_cases hx : x = k
      · simp [h1, hx]
      · simp [h1, hx, List.find?_cons, Ne.symm hx]
    · have h2 : k1 < k := lt_of_le_of_ne (not_lt.1 h1) hk1
      by_cases hx : x = k
      · subst hx
        simp [h1, h2, List.find?_cons, hk1, ih h.2]
      · by_cases e : k1 = x
        · subst e
          simp [h1, h2, List.find?_cons, hx]
        · simp [h1, h2, List.find?_cons, e, hx, ih h.2]

theorem find_eq_none_iff (m : StdMap K V) (k : K) : m.find k = none ↔ k ∉ m.keys := by
  rw [find_eq]
  cases hf : m.entries.find? (fun p => decide (p.1 = k)) with
  | none =>
    rw [List.find?_eq_none] at hf
    constructor
    · rintro _ hk
      obtain ⟨p, hp, e⟩ := List.mem_map.1 hk
      exact hf p hp (by simpa using e)
    · intro _
      rfl
  | some p =>
    have hk : k ∈ m.keys :=
      List.mem_map.2 ⟨p, List.mem_of_find?_eq_some hf, by simpa using List.find?_some hf⟩
    constructor
    · intro h
      exact absurd h (by simp)
    · intro h
      exact absurd hk h

/-- Lookup after `emplace`: a present key keeps its value, a new key gets the
emplaced one. -/
theorem find_emplace (m : StdMap K V) (hwf : m.WF) (k1 : K) (v : V) (k : K) :
    (m.emplace k1 v).find k
      = match m.find k with
        | some w => some w
        | none => if k = k1 then some v else none := by
  by_cases hm : k1 ∈ m.keys
  · have he : m.emplace k1 v = m := by
      simp only [emplace, emplaceEntries_of_mem k1 v m.entries hwf hm]
    rw [he]
    cases hf : m.find k with
    | some w => rfl
    | none =>
      have hk : k ∉ m.keys := (find_eq_none_iff m k).1 hf
      have : k ≠ k1 := fun e => hk (e ▸ hm)
      simp [this]
  · rw [find_eq, find_eq]
    simp only [emplace]
    rw [find_emplaceEntries_of_not_mem k1 v m.entries hm k]
    by_cases hx : k = k1
    · subst hx
      have hn := (find_eq_none_iff m k).2 hm
      rw [find_eq] at hn
      simp [hn]
    · simp only [hx, if_false]
      cases List.find? (fun p => decide (p.1 = k)) m.entries <;> rfl

theorem mem_keys_insertOrAssignEntries (k : K) (v : V) (l : List (K × V)) (x : K) :
    x ∈ (insertOrAssignEntries k v l).map Prod.fst ↔ x = k ∨ x ∈ l.map Prod.fst := by
  induction l with
  | nil => simp [insertOrAssignEntries]
  | cons p rest ih =>
    obtain ⟨k1, v1⟩ := p
    simp only [insertOrAssignEntries]
    split_ifs with h1 h2
    · simp
    · simp only [List.map_cons, List.mem_cons, ih]
      tauto
    · have hk : k1 = k := (equiv_iff k1 k).1 ⟨h2, h1⟩
      subst hk
      simp

theorem sorted_insertOrAssignEntries (k : K) (v : V) (l : List (K × V))
    (h : (l.map Prod.fst).Sorted (· < ·)) :
    ((insertOrAssignEntries k v l).map Prod.fst).Sorted (· < ·) := by
  induction l with
  | nil => simp [insertOrAssignEntries]
  | cons p rest ih =>
    obtain ⟨k1, v1⟩ := p
    simp only [List.map_cons, List.sorted_cons] at h
    simp only [insertOrAssignEntries]
    split_ifs with h1 h2
    · simp only [List.map_cons, List.sorted_cons, List.mem_cons]
      refine ⟨?_, h⟩
      rintro b (rfl | hb)
      · exact h1
      · exact lt_trans h1 (h.1 b hb)
    · simp only [List.map_cons, List.sorted_cons]
      refine ⟨?_, ih h.2⟩
      intro b hb
      rcases (mem_keys_insertOrAssignEntries k v rest b).1 hb with rfl | hb
      · exact h2
      · exact h.1 b hb
    · simpa using h

theorem insertOrAssign_wf (m : StdMap K V) (k : K) (v : V) (h : m.WF) :
    (m.insertOrAssign k v).WF :=
  sorted_insertOrAssignEntries k v m.entries h

theorem erase_wf (m : StdMap K V) (k : K) (h : m.WF) : (m.erase k).WF := by
  unfold WF erase
  exact List.Pairwise.sublist ((List.filter_sublist _).map Prod.fst) h

end StdMap

/-! ## Facts about `configuration` and `setConfiguration` -/

namespace InputMapConfigModel

variable {E N : Type}

theorem find?_of_first {α : Type} (p : α → Bool) (l : List α) (i : Nat) (a : α)
    (h : l[i]? = some a) (hp : p a = true)
    (hfirst : ∀ j < i, ∀ b, l[j]? = some b → p b = false) : l.find? p = some a := by
  induction l generalizing i with
  | nil => simp at h
  | cons x l ih =>
    cases i with
    | zero =>
      simp only [List.getElem?_cons_zero, Option.some.injEq] at h
      subst h
      simp [List.find?_cons, hp]
    | succ i =>
      have hx : p x = false := hfirst 0 (Nat.succ_pos i) x (by simp)
      simp only [List.getElem?_cons_succ] at h
      simp only [List.find?_cons, hx]
      exact ih i h (fun j hj b hb => hfirst (j + 1) (Nat.succ_lt_succ hj) b (by simpa using hb))

theorem setConfiguration_items (s : InputMapConfigModel E N) (c : InputMapConfig E N) :
    (s.setConfiguration c).m_configItems
      = c.entries.map (fun p => ⟨p.1, p.2.sequence⟩) := by
  have h : ∀ (l : List (KeyEventSequence E × MappedInputAction N))
      (acc : List (InputMapModelItem E N)),
      l.foldl (fun items item => items ++ [⟨item.1, item.2.sequence⟩]) acc
        = acc ++ l.map (fun p => ⟨p.1, p.2.sequence⟩) := by
    intro l
    induction l with
    | nil => simp
    | cons p l ih => intro acc; simp [ih]
  simp only [setConfiguration]
  rw [h]
  rfl

variable [LinearOrder E]

theorem configurationStep_wf (config : InputMapConfig E N) (item : InputMapModelItem E N)
    (h : config.WF) : (configurationStep config item).WF := by
  unfold configurationStep
  split_ifs
  · exact h
  · exact StdMap.emplace_wf _ _ _ h

theorem foldl_configurationStep_wf (rows : List (InputMapModelItem E N))
    (acc : InputMapConfig E N) (h : acc.WF) : (rows.foldl configurationStep acc).WF := by
  induction rows generalizing acc with
  | nil => exact h
  | cons r rows ih => exact ih _ (configurationStep_wf acc r h)

theorem configuration_wf (s : InputMapConfigModel E N) : s.configuration.WF :=
  foldl_configurationStep_wf _ _ StdMap.empty_wf

theorem mem_keys_configurationStep (config : InputMapConfig E N)
    (item : InputMapModelItem E N) (k : KeyEventSequence E) :
    k ∈ (configurationStep config item).keys
      ↔ k ∈ config.keys ∨ (k ≠ [] ∧ item.deviceSequence = k) := by
  unfold configurationStep
  split_ifs with h
  · have h0 : item.deviceSequence = [] := List.length_eq_zero.1 h
    constructor
    · exact Or.inl
    · rintro (hk | ⟨hne, rfl⟩)
      · exact hk
      · exact absurd h0 hne
  · have h0 : item.deviceSequence ≠ [] := fun e => h (by simp [e])
    simp only [StdMap.keys, StdMap.emplace, StdMap.mem_keys_emplaceEntries]
    constructor
    · rintro (rfl | hk)
      · exact Or.inr ⟨h0, rfl⟩
      · exact Or.inl hk
    · rintro (hk | ⟨_, rfl⟩)
      · exact Or.inr hk
      · exact Or.inl rfl

theorem mem_keys_foldl_configurationStep (rows : List (InputMapModelItem E N))
    (acc : InputMapConfig E N) (k : KeyEventSequence E) :
    k ∈ (rows.foldl configurationStep acc).keys
      ↔ k ∈ acc.keys ∨ (k ≠ [] ∧ ∃ r ∈ rows, r.deviceSequence = k) := by
  induction rows generalizing acc with
  | nil => simp
  | cons r rows ih =>
    simp only [List.foldl_cons, ih, mem_keys_configurationStep, List.mem_cons,
      exists_eq_or_imp]
    tauto

theorem mem_keys_configuration (s : InputMapConfigModel E N) (k : KeyEventSequence E) :
    k ∈ s.configuration.keys ↔ k ≠ [] ∧ ∃ r ∈ s.m_configItems, r.deviceSequence = k := by
  unfold configuration
  rw [mem_keys_foldl_configurationStep]
  simp [StdMap.keys, StdMap.empty]

theorem find_foldl_configurationStep (rows : List (InputMapModelItem E N))
    (acc : InputMapConfig E N) (hwf : acc.WF) (k : KeyEventSequence E) (hk : k ≠ []) :
    (rows.foldl configurationStep acc).find k
      = match acc.find k with
        | some w => some w
        | none => (rows.find? (fun r => decide (r.deviceSequence = k))).map
            (fun r => ⟨r.mappedSequence⟩) := by
  induction rows generalizing acc with
  | nil => cases h : acc.find k <;> simp [h]
  | cons r rows ih =>
    rw [List.foldl_cons, ih _ (configurationStep_wf acc r hwf)]
    unfold configurationStep
    split_ifs with h
    · have h0 : r.deviceSequence = [] := List.length_eq_zero.1 h
      have hne : ¬ r.deviceSequence = k := fun e => hk (e ▸ h0)
      simp [List.find?_cons, hne]
    · rw [StdMap.find_emplace acc hwf]
      cases acc.find k with
      | some w => rfl
      | none =>
        by_cases e : k = r.deviceSequence
        · simp [List.find?_cons, e]
        · simp [List.find?_cons, e, Ne.symm e]

/-- Lookup in the built configuration: the first row carrying the key decides. -/
theorem find_configuration (s : InputMapConfigModel E N) (k : KeyEventSequence E)
    (hk : k ≠ []) :
    s.configuration.find k
      = (s.m_configItems.find? (fun r => decide (r.deviceSequence = k))).map
          (fun r => ⟨r.mappedSequence⟩) := by
  unfold configuration
  rw [find_foldl_configurationStep _ _ StdMap.empty_wf k hk]
  rfl

theorem foldl_configurationStep_roundtrip
    (l acc : List (KeyEventSequence E × MappedInputAction N))
    (hs : ((acc ++ l).map Prod.fst).Sorted (· < ·))
    (hne : ∀ p ∈ l, p.1 ≠ []) :
    (l.map (fun p => (⟨p.1, p.2.sequence⟩ : InputMapModelItem E N))).foldl
        configurationStep ⟨acc⟩ = ⟨acc ++ l⟩ := by
  induction l generalizing acc with
  | nil => simp
  | cons p l ih =>
    obtain ⟨k, v⟩ := p
    have hk : k ≠ [] := hne (k, v) (by simp)
    have hlt : ∀ x ∈ acc.map Prod.fst, x < k := by
      intro x hx
      simp only [List.map_append, List.map_cons] at hs
      exact (List.pairwise_append.1 hs).2.2 x hx k (by simp)
    have hstep : configurationStep (⟨acc⟩ : InputMapConfig E N) ⟨k, v.sequence⟩
        = ⟨acc ++ [(k, v)]⟩ := by
      have : ¬ k.length = 0 := fun e => hk (List.length_eq_zero.1 e)
      simp only [configurationStep, this, if_false, StdMap.emplace,
        StdMap.emplaceEntries_append k _ acc hlt]
    simp only [List.map_cons, List.foldl_cons, hstep]
    rw [ih (acc ++ [(k, v)]) (by simpa using hs) (fun p hp => hne p (by simp [hp]))]
    simp

end InputMapConfigModel

/-! ## Facts about row removal -/

section Removal

variable {α : Type}

/-- A larger iteration bound does not change the result of the loop: the bound
`toRow - fromRow + 1` is never what stops it. -/
theorem removeLoop_fuel (fromRow : Int) (k : Nat) :
    ∀ (i : Int) (items : List α) (j : Nat), i - fromRow + 1 ≤ k →
      removeLoop fromRow (k + j) i items = removeLoop fromRow k i items := by
  induction k with
  | zero =>
    intro i items j h
    cases j with
    | zero => rfl
    | succ j =>
      have : ¬ (fromRow ≤ i ∧ i < (items.length : Int)) := by
        intro hc
        have := hc.1
        simp at h
        omega
      simp [removeLoop, this]
  | succ k ih =>
    intro i items j h
    have e : k + 1 + j = (k + j) + 1 := by omega
    rw [e]
    simp only [removeLoop]
    split_ifs with hc
    · exact ih (i - 1) _ j (by push_cast at h; omega)
    · rfl

theorem removeLoop_eq (f : Nat) (k : Nat) :
    ∀ (items : List α), f + k ≤ items.length →
      removeLoop (f : Int) k ((f : Int) + k - 1) items = items.take f ++ items.drop (f + k) := by
  induction k with
  | zero =>
    intro items _
    simp [removeLoop]
  | succ k ih =>
    intro items h
    have hc : ((f : Int) ≤ (f : Int) + ((k + 1 : Nat) : Int) - 1
        ∧ (f : Int) + ((k + 1 : Nat) : Int) - 1 < (items.length : Int)) := by
      constructor <;> push_cast <;> omega
    have hi : (f : Int) + ((k + 1 : Nat) : Int) - 1 = ((f + k : Nat) : Int) := by
      push_cast; omega
    have hi2 : ((f + k : Nat) : Int) - 1 = (f : Int) + (k : Int) - 1 := by
      push_cast; omega
    simp only [removeLoop, hc, and_self, if_true]
    rw [hi, hi2]
    have hr : removeAt items ((f + k : Nat) : Int) = items.eraseIdx (f + k) := by
      have : (0 : Int) ≤ ((f + k : Nat) : Int) ∧ ((f + k : Nat) : Int) < (items.length : Int) := by
        constructor <;> omega
      simp only [removeAt, this, and_self, if_true, Int.toNat_ofNat]
    rw [hr, ih _ (by rw [List.length_eraseIdx]; split_ifs <;> omega)]
    rw [List.eraseIdx_eq_take_drop_succ]
    have hl : (items.take (f + k)).length = f + k := by
      rw [List.length_take]; omega
    have ht : f ≤ (items.take (f + k)).length := by omega
    have hd : f + k ≤ (items.take (f + k)).length := by omega
    congr 1
    · rw [List.take_append_of_le_length ht, List.take_take]
      congr 1
      omega
    · rw [List.drop_append_of_le_length hd]
      have : List.drop (f + k) (List.take (f + k) items) = [] := by
        rw [List.drop_eq_nil_iff]; omega
      rw [this]
      rfl

/-- Removing an existing range of rows keeps what is before and after it. -/
theorem removeRows_eq (items : List α) (fromRow toRow : Int)
    (h0 : 0 ≤ fromRow) (h1 : fromRow ≤ toRow) (h2 : toRow < items.length) :
    removeRows items fromRow toRow
      = items.take fromRow.toNat ++ items.drop (toRow.toNat + 1) := by
  have hn : ¬ fromRow > toRow := by omega
  simp only [removeRows, hn, if_false]
  obtain ⟨f, rfl⟩ := Int.eq_ofNat_of_zero_le h0
  obtain ⟨k, hk⟩ : ∃ k : Nat, toRow = (f : Int) + (k : Int) - 1 :=
    ⟨(toRow - f + 1).toNat, by omega⟩
  subst hk
  have e1 : ((f : Int) + (k : Int) - 1 - (f : Int) + 1).toNat = k := by omega
  have e2 : ((f : Int) + (k : Int) - 1).toNat + 1 = f + k := by omega
  rw [e1, e2, Int.toNat_ofNat]
  exact removeLoop_eq f k items (by omega)

/-- A range whose end is not an existing row removes nothing. -/
theorem removeRows_of_length_le (items : List α) (fromRow toRow : Int)
    (h : (items.length : Int) ≤ toRow) : removeRows items fromRow toRow = items := by
  unfold removeRows
  split_ifs with hc
  · rfl
  · cases (toRow - fromRow + 1).toNat with
    | zero => rfl
    | succ k =>
      have : ¬ (fromRow ≤ toRow ∧ toRow < (items.length : Int)) := by omega
      simp [removeLoop, this]

theorem keepFrom_append (Q : Nat → Bool) (a b : List α) (off : Nat) :
    keepFrom Q off (a ++ b) = keepFrom Q off a ++ keepFrom Q (off + a.length) b := by
  induction a generalizing off with
  | nil => simp [keepFrom]
  | cons x a ih =>
    have e : off + (a.length + 1) = off + 1 + a.length := by omega
    simp only [List.cons_append, keepFrom, List.length_cons, e]
    split_ifs <;> simp [ih (off + 1)]

theorem keepFrom_all (Q : Nat → Bool) (l : List α) (off : Nat)
    (h : ∀ i, off ≤ i → i < off + l.length → Q i = true) : keepFrom Q off l = l := by
  induction l generalizing off with
  | nil => rfl
  | cons x l ih =>
    have h0 : Q off = true := h off (le_refl _) (by simp)
    simp only [keepFrom, h0, if_true]
    rw [ih (off + 1) (fun i h1 h2 => h i (by omega) (by simp only [List.length_cons]; omega))]

theorem keepFrom_none (Q : Nat → Bool) (l : List α) (off : Nat)
    (h : ∀ i, off ≤ i → i < off + l.length → Q i = false) : keepFrom Q off l = [] := by
  induction l generalizing off with
  | nil => rfl
  | cons x l ih =>
    have h0 : Q off = false := h off (le_refl _) (by simp)
    simp only [keepFrom, h0]
    exact ih (off + 1) (fun i h1 h2 => h i (by omega) (by simp only [List.length_cons]; omega))

theorem keepFrom_eq_enumFrom (Q : Nat → Bool) (l : List α) (off : Nat) :
    keepFrom Q off l = ((l.enumFrom off).filter (fun p => Q p.1)).map Prod.snd := by
  induction l generalizing off with
  | nil => rfl
  | cons x l ih =>
    simp only [keepFrom, List.enumFrom_cons, List.filter_cons, ih]
    split_ifs <;> simp

/-- Splitting the kept part of a tail of `orig` at a later index. -/
theorem keepFrom_drop_split (Q : Nat → Bool) (orig : List α) (a b : Nat)
    (hab : a ≤ b) (hb : b ≤ orig.length) :
    keepFrom Q a (orig.drop a)
      = keepFrom Q a ((orig.drop a).take (b - a)) ++ keepFrom Q b (orig.drop b) := by
  have h1 : orig.drop a = (orig.drop a).take (b - a) ++ orig.drop b := by
    have := (List.take_append_drop (b - a) (orig.drop a)).symm
    rw [List.drop_drop] at this
    have e : a + (b - a) = b := by omega
    rw [e] at this
    exact this
  have hl : ((orig.drop a).take (b - a)).length = b - a := by
    rw [List.length_take, List.length_drop]; omega
  conv_lhs => rw [h1]
  rw [keepFrom_append, hl]
  have e : a + (b - a) = b := by omega
  rw [e]

/-- With `cur` the rows after all listed rows above `sl` are gone, removing the
range `sf..sl` of listed rows yields the rows after all listed rows from `a` on are
gone, when no row in `a..sf-1` is listed. -/
theorem removeRows_flush (Q : Nat → Bool) (orig cur : List α) (a sf sl : Nat)
    (hcur : cur = orig.take (sl + 1) ++ keepFrom Q (sl + 1) (orig.drop (sl + 1)))
    (ha : a ≤ sf) (hsf : sf ≤ sl) (hsl : sl < orig.length)
    (hT : ∀ i, a ≤ i → i < sf → Q i = true)
    (hF : ∀ i, sf ≤ i → i ≤ sl → Q i = false) :
    removeRows cur (sf : Int) (sl : Int) = orig.take a ++ keepFrom Q a (orig.drop a) := by
  have hlen : (orig.take (sl + 1)).length = sl + 1 := by
    rw [List.length_take]; omega
  have hcl : sl + 1 ≤ cur.length := by
    rw [hcur, List.length_append, hlen]; omega
  rw [removeRows_eq cur sf sl (by omega) (by omega) (by omega)]
  simp only [Int.toNat_ofNat]
  have h1 : cur.take sf = orig.take sf := by
    have hle : sf ≤ (orig.take (sl + 1)).length := by omega
    rw [hcur, List.take_append_of_le_length hle, List.take_take]
    congr 1
    omega
  have h2 : cur.drop (sl + 1) = keepFrom Q (sl + 1) (orig.drop (sl + 1)) := by
    have hle : sl + 1 ≤ (orig.take (sl + 1)).length := by omega
    rw [hcur, List.drop_append_of_le_length hle]
    have : List.drop (sl + 1) (List.take (sl + 1) orig) = [] := by
      rw [List.drop_eq_nil_iff]; omega
    rw [this]
    rfl
  rw [h1, h2]
  rw [keepFrom_drop_split Q orig a sf ha (by omega)]
  rw [keepFrom_drop_split Q orig sf (sl + 1) (by omega) (by omega)]
  have hk1 : keepFrom Q a ((orig.drop a).take (sf - a)) = (orig.drop a).take (sf - a) := by
    apply keepFrom_all
    intro i h1 h2
    rw [List.length_take, List.length_drop] at h2
    exact hT i h1 (by omega)
  have hk2 : keepFrom Q sf ((orig.drop sf).take (sl + 1 - sf)) = [] := by
    apply keepFrom_none
    intro i h1 h2
    rw [List.length_take, List.length_drop] at h2
    exact hF i h1 (by omega)
  rw [hk1, hk2, List.nil_append, ← List.append_assoc, ← List.take_add]
  congr 2
  omega

end Removal

namespace InputMapConfigModel

variable {E N : Type}

/-- Invariant of the loop over the descending row list: `s1` holds the original
rows without the listed rows above `sl`, the pending range `sf..sl` consists of
listed rows, and `rest` holds every listed row below `sf`. The final range removal
then leaves exactly the rows that are not listed. -/
theorem foldl_removeStep_spec (orig : List (InputMapModelItem E N)) (rows : List Int) :
    ∀ (rest : List Int) (s1 : InputMapConfigModel E N) (sf sl : Nat),
      rest.Sorted (· ≥ ·) →
      (∀ r ∈ rest, r ≤ (sf : Int)) →
      (∀ r ∈ rest, r ∈ rows ∧ 0 ≤ r) →
      sf ≤ sl → sl < orig.length →
      (∀ i : Nat, sf ≤ i → i ≤ sl → (i : Int) ∈ rows) →
      (∀ r ∈ rows, r < (sf : Int) → r ∈ rest) →
      s1.m_configItems = orig.take (sl + 1)
        ++ keepFrom (fun i => decide ((i : Int) ∉ rows)) (sl + 1) (orig.drop (sl + 1)) →
      removeRows (rest.foldl removeStep (s1, (sf : Int), (sl : Int))).1.m_configItems
          (rest.foldl removeStep (s1, (sf : Int), (sl : Int))).2.1
          (rest.foldl removeStep (s1, (sf : Int), (sl : Int))).2.2
        = keepFrom (fun i => decide ((i : Int) ∉ rows)) 0 orig
      ∧ (rest.foldl removeStep (s1, (sf : Int), (sl : Int))).1.m_inputMapper
        = s1.m_inputMapper := by
  intro rest
  induction rest with
  | nil =>
    intro s1 sf sl _ _ _ hsf hsl hrange hbelow hcur
    simp only [List.foldl_nil, and_true]
    have hT : ∀ i, 0 ≤ i → i < sf → (fun i : Nat => decide ((i : Int) ∉ rows)) i = true := by
      intro i _ hi
      simp only [decide_eq_true_eq]
      intro hmem
      have := hbelow _ hmem (by omega)
      simp at this
    have hF : ∀ i, sf ≤ i → i ≤ sl → (fun i : Nat => decide ((i : Int) ∉ rows)) i = false := by
      intro i h1 h2
      simp only [decide_eq_false_iff_not, not_not]
      exact hrange i h1 h2
    rw [removeRows_flush _ orig s1.m_configItems 0 sf sl hcur (Nat.zero_le _) hsf hsl hT hF]
    simp
  | cons it rest ih =>
    intro s1 sf sl hsorted hle hmem hsf hsl hrange hbelow hcur
    obtain ⟨itn, rfl⟩ := Int.eq_ofNat_of_zero_le (hmem it (by simp)).2
    have hit : (itn : Int) ≤ sf := hle _ (by simp)
    have hsorted2 := List.sorted_cons.1 hsorted
    have hmem2 : ∀ r ∈ rest, r ∈ rows ∧ 0 ≤ r := fun r hr => hmem r (by simp [hr])
    have hle2 : ∀ r ∈ rest, r ≤ (itn : Int) := fun r hr => hsorted2.1 r hr
    have hbelow2 : ∀ r ∈ rows, r < (itn : Int) → r ∈ rest := by
      intro r hr hlt
      have := hbelow r hr (by omega)
      rcases List.mem_cons.1 this with e | h
      · omega
      · exact h
    rw [List.foldl_cons]
    by_cases hc : (sf : Int) - (itn : Int) > 1
    · have hstep : removeStep (s1, (sf : Int), (sl : Int)) (itn : Int)
          = (s1.removeConfigItemRowsRange sf sl, (itn : Int), (itn : Int)) := by
        simp only [removeStep, hc, if_true]
      rw [hstep]
      have hT : ∀ i, itn + 1 ≤ i → i < sf →
          (fun i : Nat => decide ((i : Int) ∉ rows)) i = true := by
        intro i h1 h2
        simp only [decide_eq_true_eq]
        intro hm
        have := hbelow _ hm (by omega)
        rcases List.mem_cons.1 this with e | h
        · omega
        · have := hle2 _ h
          omega
      have hF : ∀ i, sf ≤ i → i ≤ sl →
          (fun i : Nat => decide ((i : Int) ∉ rows)) i = false := by
        intro i h1 h2
        simp only [decide_eq_false_iff_not, not_not]
        exact hrange i h1 h2
      have hnew := removeRows_flush _ orig s1.m_configItems (itn + 1) sf sl hcur
        (by omega) hsf hsl hT hF
      have := ih (s1.removeConfigItemRowsRange sf sl) itn itn hsorted2.2 hle2 hmem2
        (le_refl _) (by omega)
        (fun i h1 h2 => by
          have : i = itn := by omega
          subst this
          exact (hmem _ (by simp)).1)
        hbelow2 hnew
      exact ⟨this.1, this.2⟩
    · have hstep : removeStep (s1, (sf : Int), (sl : Int)) (itn : Int)
          = (s1, (itn : Int), (sl : Int)) := by
        simp only [removeStep, hc, if_false]
      rw [hstep]
      exact ih s1 itn sl hsorted2.2 hle2 hmem2 (by omega) hsl
        (fun i h1 h2 => by
          by_cases e : i = itn
          · subst e
            exact (hmem _ (by simp)).1
          · exact hrange i (by omega) h2)
        hbelow2 hcur

theorem rowsNotListed_eq_keepFrom {α : Type} (items : List α) (rows : List Int) :
    rowsNotListed items rows = keepFrom (fun i => decide ((i : Int) ∉ rows)) 0 items := by
  rw [keepFrom_eq_enumFrom]
  rfl

/-- Size of the unlisted part: each distinct listed index accounts for one row. -/
theorem length_rowsNotListed {α : Type} (items : List α) (rows : List Int)
    (hr : ∀ r ∈ rows, 0 ≤ r ∧ r < (items.length : Int)) :
    (rowsNotListed items rows).length + rows.dedup.length = items.length := by
  have h1 : (rowsNotListed items rows).length
      = ((List.range items.length).filter (fun i : Nat => decide ((i : Int) ∉ rows))).length := by
    unfold rowsNotListed
    rw [List.length_map, ← List.enum_map_fst, List.filter_map, List.length_map]
    rfl
  have h2 : ((List.range items.length).filter (fun i : Nat => decide ((i : Int) ∈ rows))).length
      = rows.dedup.length := by
    have hnd1 : (((List.range items.length).filter
        (fun i : Nat => decide ((i : Int) ∈ rows))).map (fun i : Nat => (i : Int))).Nodup :=
      ((List.nodup_range _).filter _).map (fun a b h => by simpa using h)
    have hperm := (List.perm_ext_iff_of_nodup hnd1 (List.nodup_dedup rows)).2 (by
      intro x
      simp only [List.mem_map, List.mem_filter, List.mem_range, decide_eq_true_eq,
        List.mem_dedup]
      constructor
      · rintro ⟨i, ⟨_, hi⟩, rfl⟩
        exact hi
      · intro hx
        have := hr x hx
        exact ⟨x.toNat, ⟨by omega, by rw [Int.toNat_of_nonneg this.1]; exact hx⟩,
          Int.toNat_of_nonneg this.1⟩)
    rw [← hperm.length_eq, List.length_map]
  have h3 := List.length_eq_countP_add_countP
    (fun i : Nat => decide ((i : Int) ∈ rows)) (List.range items.length)
  rw [List.countP_eq_length_filter, List.countP_eq_length_filter, List.length_range] at h3
  rw [h1, ← h2]
  have h4 : (List.filter (fun a : Nat => decide ¬(decide ((a : Int) ∈ rows)) = true)
      (List.range items.length))
      = (List.range items.length).filter (fun i : Nat => decide ((i : Int) ∉ rows)) := by
    congr 1
    funext a
    simp
  rw [h4] at h3
  omega

variable [LinearOrder E]

theorem configureInputMapper_items (s : InputMapConfigModel E N) :
    s.configureInputMapper.m_configItems = s.m_configItems := by
  unfold configureInputMapper
  cases s.m_inputMapper <;> rfl

theorem removeConfigItemRows_items (s : InputMapConfigModel E N) (rows : List Int)
    (hne : rows ≠ []) (hr : ∀ r ∈ rows, 0 ≤ r ∧ r < (s.m_configItems.length : Int)) :
    (s.removeConfigItemRows rows).m_configItems = rowsNotListed s.m_configItems rows := by
  have hperm := List.perm_insertionSort (· ≥ ·) rows
  have hsorted := List.sorted_insertionSort (· ≥ ·) rows
  have hemp : rows.isEmpty = false := by
    cases rows with
    | nil => exact absurd rfl hne
    | cons _ _ => rfl
  unfold removeConfigItemRows
  simp only [hemp, Bool.false_eq_true, if_false]
  cases hs : rows.insertionSort (· ≥ ·) with
  | nil =>
    rw [hs] at hperm
    exact absurd hperm.symm.eq_nil hne
  | cons front rest =>
    rw [hs] at hperm hsorted
    have hmem : ∀ r, r ∈ rows ↔ r = front ∨ r ∈ rest := fun r => by
      rw [← hperm.mem_iff, List.mem_cons]
    have hfront := hr front ((hmem front).2 (Or.inl rfl))
    obtain ⟨fn, rfl⟩ := Int.eq_ofNat_of_zero_le hfront.1
    have hsc := List.sorted_cons.1 hsorted
    simp only [configureInputMapper_items, removeConfigItemRowsRange]
    rw [rowsNotListed_eq_keepFrom]
    refine (foldl_removeStep_spec s.m_configItems rows rest s fn fn hsc.2
      (fun r h => hsc.1 r h)
      (fun r h => ⟨(hmem r).2 (Or.inr h), (hr r ((hmem r).2 (Or.inr h))).1⟩)
      (le_refl _) (by omega)
      (fun i h1 h2 => by
        have : i = fn := by omega
        subst this
        exact (hmem _).2 (Or.inl rfl))
      (fun r h hlt => by
        rcases (hmem r).1 h with e | h
        · omega
        · exact h)
      ?_).1
    rw [keepFrom_all, List.take_append_drop]
    intro i h1 _
    simp only [decide_eq_true_eq]
    intro hm
    rcases (hmem _).1 hm with e | h
    · omega
    · have := hsc.1 _ h
      omega

end InputMapConfigModel

/-! ## Building the configuration -/

namespace InputMapConfigModel

variable {E N : Type} [LinearOrder E]

/-- C1: for every prior model state `s` and every InputMapConfig `c` (a `std::map`
value, keys strictly ascending) whose keys are all non-empty, `setConfiguration(c)`
followed by `configuration()` returns `c`. -/
theorem setConfiguration_configuration_roundtrip (s : InputMapConfigModel E N)
    (c : InputMapConfig E N) (hwf : c.WF) (hne : ∀ k ∈ c.keys, k ≠ []) :
    (s.setConfiguration c).configuration = c := by
  unfold configuration
  rw [setConfiguration_items]
  have h := foldl_configurationStep_roundtrip c.entries [] (by simpa using hwf)
    (fun p hp => hne p.1 (List.mem_map_of_mem Prod.fst hp))
  simpa [StdMap.empty] using h

theorem setConfiguration_configuration_roundtrip_witness :
    sampleConfig.WF ∧ (∀ k ∈ sampleConfig.keys, k ≠ [])
      ∧ (sampleModel.setConfiguration sampleConfig).configuration = sampleConfig :=
  ⟨by decide, by decide,
    setConfiguration_configuration_roundtrip sampleModel sampleConfig
      (by decide) (by decide)⟩

/-- C2: in every model state the map built by `configuration()` has no empty
sequence among its keys, and when a mapper is attached `configureInputMapper` hands
exactly that map to `InputMapper::setConfiguration`, so what the mapper receives
has only non-empty keys. -/
theorem configuration_keys_nonempty (s : InputMapConfigModel E N) :
    [] ∉ s.configuration.keys
      ∧ ∀ im, s.m_inputMapper = some im →
          ∃ im1, s.configureInputMapper.m_inputMapper = some im1
            ∧ im1.received = s.configuration :: im.received
            ∧ [] ∉ im1.configuration.keys := by
  have h : [] ∉ s.configuration.keys := fun hm =>
    ((mem_keys_configuration s []).1 hm).1 rfl
  refine ⟨h, ?_⟩
  intro im him
  refine ⟨im.setConfiguration s.configuration, ?_, rfl, h⟩
  simp only [configureInputMapper, him]

theorem configuration_keys_nonempty_witness :
    [] ∉ sampleAttached.configuration.keys
      ∧ ∃ im1, sampleAttached.configureInputMapper.m_inputMapper = some im1
          ∧ im1.received = [sampleAttached.configuration]
          ∧ [] ∉ im1.configuration.keys :=
  ⟨(configuration_keys_nonempty sampleAttached).1,
    (configuration_keys_nonempty sampleAttached).2 _ rfl⟩

/-- C3 as stated fails: with two rows carrying the same non-empty input sequence,
the built configuration does not map it to the later row's mapped sequence. -/
theorem configuration_duplicate_later_row_counterexample :
    ¬ (∀ (s : InputMapConfigModel Nat Nat) (i j : Nat) (ri rj : InputMapModelItem Nat Nat),
        i < j → s.m_configItems[i]? = some ri → s.m_configItems[j]? = some rj →
        ri.deviceSequence = rj.deviceSequence → rj.deviceSequence ≠ [] →
        (∀ l rl, j < l → s.m_configItems[l]? = some rl →
          rl.deviceSequence ≠ rj.deviceSequence) →
        s.configuration.find rj.deviceSequence = some ⟨rj.mappedSequence⟩) := by
  intro h
  have h1 := h ⟨none, [⟨[1], 10⟩, ⟨[1], 20⟩]⟩ 0 1 ⟨[1], 10⟩ ⟨[1], 20⟩ (by decide) rfl rfl rfl
    (by decide) (by
      intro l rl hl hrl
      have : ([⟨[1], 10⟩, ⟨[1], 20⟩] : List (InputMapModelItem Nat Nat))[l]? = none := by
        rw [List.getElem?_eq_none_iff]
        simpa using hl
      rw [this] at hrl
      exact absurd hrl (by simp))
  revert h1
  decide

/-- C3, amended: for every model state and every row `i` with a non-empty input
sequence that no earlier row carries, `configuration()` maps that sequence to the
mapped key sequence of row `i`; a later row carrying the same input sequence with a
different mapped sequence is not the one the map holds. -/
theorem configuration_duplicate_keeps_first (s : InputMapConfigModel E N) (i : Nat)
    (ri : InputMapModelItem E N) (hi : s.m_configItems[i]? = some ri)
    (hne : ri.deviceSequence ≠ [])
    (hfirst : ∀ l rl, l < i → s.m_configItems[l]? = some rl →
      rl.deviceSequence ≠ ri.deviceSequence) :
    s.configuration.find ri.deviceSequence = some ⟨ri.mappedSequence⟩
      ∧ ∀ j rj, i < j → s.m_configItems[j]? = some rj →
          rj.deviceSequence = ri.deviceSequence → rj.mappedSequence ≠ ri.mappedSequence →
          s.configuration.find ri.deviceSequence ≠ some ⟨rj.mappedSequence⟩ := by
  have h : s.configuration.find ri.deviceSequence = some ⟨ri.mappedSequence⟩ := by
    rw [find_configuration s _ hne,
      find?_of_first _ s.m_configItems i ri hi (by simp)
        (fun l hl b hb => by simpa using hfirst l b hl hb)]
    rfl
  refine ⟨h, ?_⟩
  intro j rj _ _ _ hm
  rw [h]
  intro e
  simp only [Option.some.injEq, MappedInputAction.mk.injEq] at e
  exact hm e.symm

theorem configuration_duplicate_keeps_first_witness :
    sampleModel.configuration.find [2] = some ⟨10⟩
      ∧ sampleModel.configuration.find [2] ≠ some ⟨13⟩ :=
  have h := configuration_duplicate_keeps_first sampleModel 0 ⟨[2], 10⟩ rfl (by decide)
    (fun l _ hl => absurd hl (Nat.not_lt_zero l))
  ⟨h.1, h.2 3 ⟨[2], 13⟩ (by decide) rfl rfl (by decide)⟩

/-- C4: for every prior model state and every InputMapConfig `c`, after
`setConfiguration(c)` the rows are exactly the entries of `c`, one row per entry in
iteration order (row `i` holds the `i`-th key and its action's sequence, and the
keys ascend when `c` is a `std::map` value), `rowCount()` is the size of `c`, the
rows do not depend on the prior state, and the mapper pointer is untouched. -/
theorem setConfiguration_replaces_rows (s : InputMapConfigModel E N)
    (c : InputMapConfig E N) :
    (s.setConfiguration c).m_configItems = c.entries.map (fun p => ⟨p.1, p.2.sequence⟩)
      ∧ (∀ i : Nat, (s.setConfiguration c).m_configItems[i]?
          = (c.entries[i]?).map (fun p => ⟨p.1, p.2.sequence⟩))
      ∧ (s.setConfiguration c).rowCount QModelIndex.invalid = (c.size : Int)
      ∧ (∀ s0 : InputMapConfigModel E N,
          (s0.setConfiguration c).m_configItems = (s.setConfiguration c).m_configItems)
      ∧ (c.WF → ((s.setConfiguration c).m_configItems.map
          (fun r => r.deviceSequence)).Sorted (· < ·))
      ∧ (s.setConfiguration c).m_inputMapper = s.m_inputMapper := by
  refine ⟨setConfiguration_items s c, ?_, ?_, ?_, ?_, rfl⟩
  · intro i
    rw [setConfiguration_items, List.getElem?_map]
  · simp [rowCount, setConfiguration_items, StdMap.size]
  · intro s0
    rw [setConfiguration_items, setConfiguration_items]
  · intro hwf
    rw [setConfiguration_items, List.map_map]
    exact hwf

theorem setConfiguration_replaces_rows_witness :
    sampleConfig.WF
      ∧ (sampleModel.setConfiguration sampleConfig).m_configItems = [⟨[1], 14⟩, ⟨[1, 5], 12⟩]
      ∧ (sampleModel.setConfiguration sampleConfig).rowCount QModelIndex.invalid = 2 :=
  have h := setConfiguration_replaces_rows sampleModel sampleConfig
  ⟨by decide, h.1, h.2.2.1⟩

/-- C7: for every model state the keys of `configuration()` are exactly the
non-empty input sequences occurring in the rows; and when the non-empty input
sequences of the rows are pairwise distinct, every row with a non-empty input
sequence has that sequence mapped to a `MappedInputAction` holding the row's own
mapped key sequence, and the map has as many entries as there are rows with a
non-empty input sequence. -/
theorem configuration_keeps_every_mapping (s : InputMapConfigModel E N) :
    (∀ k, k ∈ s.configuration.keys
        ↔ k ≠ [] ∧ ∃ r ∈ s.m_configItems, r.deviceSequence = k)
      ∧ (((s.m_configItems.filter (fun r => decide (r.deviceSequence ≠ []))).map
            (fun r => r.deviceSequence)).Nodup →
          (∀ r ∈ s.m_configItems, r.deviceSequence ≠ [] →
            s.configuration.find r.deviceSequence = some ⟨r.mappedSequence⟩)
          ∧ s.configuration.size
            = (s.m_configItems.filter (fun r => decide (r.deviceSequence ≠ []))).length) := by
  refine ⟨mem_keys_configuration s, ?_⟩
  intro hnd
  constructor
  · intro r hr hne
    rw [find_configuration s _ hne]
    cases hf : s.m_configItems.find? (fun x => decide (x.deviceSequence = r.deviceSequence)) with
    | none =>
      rw [List.find?_eq_none] at hf
      exact absurd (hf r hr) (by simp)
    | some r1 =>
      have hp : r1.deviceSequence = r.deviceSequence := by
        simpa using List.find?_some hf
      have hm1 : r1 ∈ s.m_configItems.filter (fun r => decide (r.deviceSequence ≠ [])) := by
        rw [List.mem_filter]
        exact ⟨List.mem_of_find?_eq_some hf, by simpa [hp] using hne⟩
      have hm : r ∈ s.m_configItems.filter (fun r => decide (r.deviceSequence ≠ [])) := by
        rw [List.mem_filter]
        exact ⟨hr, by simpa using hne⟩
      have : r1 = r := List.inj_on_of_nodup_map hnd hm1 hm hp
      rw [this]
      rfl
  · have hk : s.configuration.keys.Nodup := (configuration_wf s).nodup
    have hperm := (List.perm_ext_iff_of_nodup hk hnd).2 (by
      intro k
      rw [mem_keys_configuration]
      simp only [List.mem_map, List.mem_filter, decide_eq_true_eq]
      constructor
      · rintro ⟨hne, r, hr, rfl⟩
        exact ⟨r, ⟨hr, hne⟩, rfl⟩
      · rintro ⟨r, ⟨hr, hne⟩, rfl⟩
        exact ⟨hne, r, hr, rfl⟩)
    have := hperm.length_eq
    simpa [StdMap.size, StdMap.keys] using this

theorem configuration_keeps_every_mapping_witness :
    (∀ r ∈ sampleDistinct.m_configItems, r.deviceSequence ≠ [] →
        sampleDistinct.configuration.find r.deviceSequence = some ⟨r.mappedSequence⟩)
      ∧ sampleDistinct.configuration.size = 3 :=
  (configuration_keeps_every_mapping sampleDistinct).2 (by decide)

end InputMapConfigModel

/-! ## Editing operations -/

namespace InputMapConfigModel

variable {E N : Type}

theorem foldl_removeStep_mapper (rest : List Int) :
    ∀ (acc : InputMapConfigModel E N × Int × Int),
      (rest.foldl removeStep acc).1.m_inputMapper = acc.1.m_inputMapper := by
  induction rest with
  | nil => intro acc; rfl
  | cons it rest ih =>
    intro acc
    rw [List.foldl_cons, ih]
    unfold removeStep
    split_ifs <;> rfl

variable [LinearOrder E]

theorem configuration_congr (s t : InputMapConfigModel E N)
    (h : s.m_configItems = t.m_configItems) : s.configuration = t.configuration := by
  unfold configuration
  rw [h]

theorem configureInputMapper_inSync (s : InputMapConfigModel E N) (im : InputMapper E N)
    (h : s.m_inputMapper = some im) : s.configureInputMapper.InSync := by
  refine ⟨im.setConfiguration s.configuration, ?_, ?_⟩
  · simp only [configureInputMapper, h]
  · exact configuration_congr _ _ (configureInputMapper_items s).symm

theorem setInputSequence_eq (s : InputMapConfigModel E N) (index : QModelIndex)
    (kes : KeyEventSequence E) (h0 : 0 ≤ index.row) :
    s.setInputSequence index kes
      = some (match s.m_configItems[index.row.toNat]? with
          | some c =>
            if c.deviceSequence ≠ kes then
              configureInputMapper
                { s with m_configItems :=
                    s.m_configItems.set index.row.toNat { c with deviceSequence := kes } }
            else s
          | none => s) := by
  have hn : ¬ index.row < 0 := by omega
  unfold setInputSequence
  by_cases hlt : index.row < (s.m_configItems.length : Int)
  · have hl : index.row.toNat < s.m_configItems.length := by omega
    simp only [hlt, hn, if_true, if_false, List.getElem?_eq_getElem hl]
    split_ifs <;> rfl
  · have hl : s.m_configItems.length ≤ index.row.toNat := by omega
    simp only [hlt, if_false, List.getElem?_eq_none hl]

theorem setKeySequence_eq [DecidableEq N] (s : InputMapConfigModel E N)
    (index : QModelIndex) (ks : N) (h0 : 0 ≤ index.row) :
    s.setKeySequence index ks
      = some (match s.m_configItems[index.row.toNat]? with
          | some c =>
            if c.mappedSequence ≠ ks then
              configureInputMapper
                { s with m_configItems :=
                    s.m_configItems.set index.row.toNat { c with mappedSequence := ks } }
            else s
          | none => s) := by
  have hn : ¬ index.row < 0 := by omega
  unfold setKeySequence
  by_cases hlt : index.row < (s.m_configItems.length : Int)
  · have hl : index.row.toNat < s.m_configItems.length := by omega
    simp only [hlt, hn, if_true, if_false, List.getElem?_eq_getElem hl]
    split_ifs <;> rfl
  · have hl : s.m_configItems.length ≤ index.row.toNat := by omega
    simp only [hlt, if_false, List.getElem?_eq_none hl]

/-- C6 as stated fails: the editing operations are not defined for all arguments.
With the default-constructed index `QModelIndex()` (row `-1`) the guard
`index.row() < size` passes, the subscript `m_configItems[-1]` is out of bounds, and
neither `setInputSequence` nor `setKeySequence` yields a state in which the mapper
holds the model's configuration. -/
theorem editing_invalid_index_counterexample :
    sampleAttached.InSync
      ∧ sampleAttached.setInputSequence QModelIndex.invalid [5] = none
      ∧ sampleAttached.setKeySequence QModelIndex.invalid 9 = none
      ∧ (¬ ∃ s1, sampleAttached.setInputSequence QModelIndex.invalid [5] = some s1
          ∧ s1.InSync)
      ∧ (¬ ∃ s1, sampleAttached.setKeySequence QModelIndex.invalid 9 = some s1
          ∧ s1.InSync) := by
  have h1 : sampleAttached.setInputSequence QModelIndex.invalid [5] = none := by decide
  have h2 : sampleAttached.setKeySequence QModelIndex.invalid 9 = none := by decide
  refine ⟨⟨_, rfl, by decide⟩, h1, h2, ?_, ?_⟩
  · rintro ⟨s1, hs1, _⟩
    rw [h1] at hs1
    exact absurd hs1 (by simp)
  · rintro ⟨s1, hs1, _⟩
    rw [h2] at hs1
    exact absurd hs1 (by simp)

/-- C6, amended: with a mapper attached that holds the model's `configuration()`,
the mapper still holds the model's `configuration()` after `addConfigItem(cfg)` for
every `cfg` (with an empty input sequence the mapper is left as it is), after
`setInputSequence(index, kes)` and `setKeySequence(index, ks)` for every index whose
row is not negative, each of which returns a state, and after
`removeConfigItemRows(rows)` for every list of row numbers that are non-negative
`int` values (from `0` to `2147483647`). -/
theorem editing_keeps_mapper_in_sync [DecidableEq N] (s : InputMapConfigModel E N)
    (h : s.InSync) :
    (∀ cfg, (s.addConfigItem cfg).1.InSync)
      ∧ (∀ cfg, cfg.deviceSequence = [] →
          (s.addConfigItem cfg).1.m_inputMapper = s.m_inputMapper)
      ∧ (∀ index kes, 0 ≤ index.row →
          ∃ s1, s.setInputSequence index kes = some s1 ∧ s1.InSync)
      ∧ (∀ index ks, 0 ≤ index.row →
          ∃ s1, s.setKeySequence index ks = some s1 ∧ s1.InSync)
      ∧ (∀ rows : List Int, (∀ r ∈ rows, 0 ≤ r ∧ r ≤ 2147483647) →
          (s.removeConfigItemRows rows).InSync) := by
  obtain ⟨im, him, hcfg⟩ := h
  have hs : s.InSync := ⟨im, him, hcfg⟩
  refine ⟨?_, ?_, ?_, ?_, ?_⟩
  · intro cfg
    dsimp only [addConfigItem]
    by_cases he : cfg.deviceSequence.length ≠ 0
    · rw [if_pos he]
      exact configureInputMapper_inSync
        { s with m_configItems := s.m_configItems ++ [cfg] } im him
    · rw [if_neg he]
      refine ⟨im, him, ?_⟩
      rw [hcfg]
      unfold configuration
      have h0 : cfg.deviceSequence.length = 0 := by simpa using he
      simp [List.foldl_append, configurationStep, h0]
  · intro cfg he
    simp [addConfigItem, he]
  · intro index kes h0
    refine ⟨_, setInputSequence_eq s index kes h0, ?_⟩
    cases s.m_configItems[index.row.toNat]? with
    | none => exact hs
    | some c =>
      simp only
      split_ifs
      · exact configureInputMapper_inSync _ im him
      · exact hs
  · intro index ks h0
    refine ⟨_, setKeySequence_eq s index ks h0, ?_⟩
    cases s.m_configItems[index.row.toNat]? with
    | none => exact hs
    | some c =>
      simp only
      split_ifs
      · exact configureInputMapper_inSync _ im him
      · exact hs
  · intro rows _
    unfold removeConfigItemRows
    split_ifs
    · exact hs
    · cases rows.insertionSort (· ≥ ·) with
      | nil => exact hs
      | cons front rest =>
        simp only
        apply configureInputMapper_inSync _ im
        simp only [removeConfigItemRowsRange, foldl_removeStep_mapper, him]

theorem editing_keeps_mapper_in_sync_witness :
    sampleAttached.InSync
      ∧ (sampleAttached.addConfigItem ⟨[], 7⟩).1.InSync
      ∧ (sampleAttached.addConfigItem ⟨[3], 7⟩).1.InSync
      ∧ (∃ s1, sampleAttached.setInputSequence ⟨0, 0⟩ [5] = some s1 ∧ s1.InSync)
      ∧ (∃ s1, sampleAttached.setKeySequence ⟨2, 1⟩ 9 = some s1 ∧ s1.InSync)
      ∧ (sampleAttached.removeConfigItemRows [2, 0]).InSync :=
  have hs : sampleAttached.InSync := ⟨_, rfl, by decide⟩
  have h := editing_keeps_mapper_in_sync sampleAttached hs
  ⟨hs, h.1 _, h.1 _, h.2.2.1 _ _ (by decide), h.2.2.2.1 _ _ (by decide),
    h.2.2.2.2 _ (by decide)⟩

/-- C8: for every model state, every index with a non-negative row and every
sequence `kes`, `setInputSequence(index, kes)` returns; when the addressed row
exists and its input sequence already equals `kes` the whole state, mapper and what
it has received included, is unchanged; a second call with the same arguments
changes nothing more; and after the call `rowCount()`, every mapped key sequence
and every other row are as before. -/
theorem setInputSequence_idempotent (s : InputMapConfigModel E N) (index : QModelIndex)
    (kes : KeyEventSequence E) (h0 : 0 ≤ index.row) :
    ∃ s1, s.setInputSequence index kes = some s1
      ∧ (∀ c, s.m_configItems[index.row.toNat]? = some c → c.deviceSequence = kes → s1 = s)
      ∧ s1.setInputSequence index kes = some s1
      ∧ s1.rowCount QModelIndex.invalid = s.rowCount QModelIndex.invalid
      ∧ s1.m_configItems.map (fun r => r.mappedSequence)
          = s.m_configItems.map (fun r => r.mappedSequence)
      ∧ (∀ j : Nat, (j : Int) ≠ index.row → s1.m_configItems[j]? = s.m_configItems[j]?) := by
  have hres := setInputSequence_eq s index kes h0
  cases hget : s.m_configItems[index.row.toNat]? with
  | none =>
    rw [hget] at hres
    exact ⟨s, hres, fun _ _ _ => rfl, hres, rfl, rfl, fun _ _ => rfl⟩
  | some c =>
    rw [hget] at hres
    by_cases he : c.deviceSequence = kes
    · have hne : ¬ c.deviceSequence ≠ kes := by simpa using he
      simp only [hne, if_false] at hres
      exact ⟨s, hres, fun _ _ _ => rfl, hres, rfl, rfl, fun _ _ => rfl⟩
    · have hne : c.deviceSequence ≠ kes := he
      have hl : index.row.toNat < s.m_configItems.length := by
        by_contra hc
        rw [List.getElem?_eq_none (by omega)] at hget
        exact absurd hget (by simp)
      simp only [hne, if_true, ne_eq, not_false_eq_true] at hres
      refine ⟨_, hres, ?_, ?_, ?_, ?_, ?_⟩
      · intro c1 hc1 hk
        simp only [Option.some.injEq] at hc1
        subst hc1
        exact absurd hk he
      · rw [setInputSequence_eq _ index kes h0]
        simp only [configureInputMapper_items, List.getElem?_set_self hl, ne_eq,
          not_true_eq_false, if_false]
      · simp [rowCount, configureInputMapper_items]
      · simp only [configureInputMapper_items]
        apply List.ext_getElem?
        intro j
        simp only [List.getElem?_map]
        by_cases hj : index.row.toNat = j
        · subst hj
          rw [List.getElem?_set_self hl, hget]
          rfl
        · rw [List.getElem?_set_ne hj]
      · intro j hj
        have hj2 : index.row.toNat ≠ j := by omega
        simp only [configureInputMapper_items, List.getElem?_set_ne hj2]

theorem setInputSequence_idempotent_witness :
    sampleAttached.setInputSequence ⟨2, 0⟩ [1] = some sampleAttached
      ∧ ∃ s1, sampleAttached.setInputSequence ⟨0, 0⟩ [5] = some s1
          ∧ s1.setInputSequence ⟨0, 0⟩ [5] = some s1
          ∧ s1.m_configItems = [⟨[5], 10⟩, ⟨[], 11⟩, ⟨[1], 14⟩] := by
  obtain ⟨s1, h1, h2, _⟩ := setInputSequence_idempotent sampleAttached ⟨2, 0⟩ [1] (by decide)
  obtain ⟨s2, h3, _, h4, _⟩ := setInputSequence_idempotent sampleAttached ⟨0, 0⟩ [5] (by decide)
  refine ⟨?_, s2, h3, h4, ?_⟩
  · rw [h1, h2 ⟨[1], 14⟩ rfl rfl]
  · have : sampleAttached.setInputSequence ⟨0, 0⟩ [5] = some
        ⟨some ⟨⟨[([1], ⟨14⟩), ([5], ⟨10⟩)]⟩, [⟨[([1], ⟨14⟩), ([5], ⟨10⟩)]⟩]⟩,
          [⟨[5], 10⟩, ⟨[], 11⟩, ⟨[1], 14⟩]⟩ := by decide
    rw [this] at h3
    simp only [Option.some.injEq] at h3
    rw [← h3]

end InputMapConfigModel

/-! ## Removing rows -/

namespace InputMapConfigModel

variable {E N : Type} [LinearOrder E]

/-- C9: for every model state with `n` rows and every non-empty list `rows` of
indexes all in `[0, n)`, in any order and with repetitions allowed, after
`removeConfigItemRows(rows)` the rows are exactly the original rows whose index does
not occur in the list, in their original order, and `rowCount()` has dropped by the
number of distinct indexes in the list. -/
theorem removeConfigItemRows_removes_exactly_listed (s : InputMapConfigModel E N)
    (rows : List Int) (hne : rows ≠ [])
    (hr : ∀ r ∈ rows, 0 ≤ r ∧ r < (s.m_configItems.length : Int)) :
    (s.removeConfigItemRows rows).m_configItems = rowsNotListed s.m_configItems rows
      ∧ (s.removeConfigItemRows rows).rowCount QModelIndex.invalid
          = s.rowCount QModelIndex.invalid - (rows.dedup.length : Int) := by
  have h := removeConfigItemRows_items s rows hne hr
  refine ⟨h, ?_⟩
  have hl := length_rowsNotListed s.m_configItems rows hr
  simp only [rowCount, if_true, h]
  omega

theorem removeConfigItemRows_removes_exactly_listed_witness :
    (sampleModel.removeConfigItemRows [3, 0, 3, 1]).m_configItems = [⟨[1, 5], 12⟩, ⟨[1], 14⟩]
      ∧ (sampleModel.removeConfigItemRows [3, 0, 3, 1]).rowCount QModelIndex.invalid = 5 - 3 :=
  removeConfigItemRows_removes_exactly_listed sampleModel [3, 0, 3, 1] (by decide) (by decide)

/-- C10: for every model state with `n` rows, `removeConfigItemRows(fromRow, toRow)`
with `toRow >= n` changes nothing, whatever `fromRow` is; with
`0 <= fromRow <= toRow < n` it leaves the rows before `fromRow` followed by the rows
after `toRow`; with `fromRow > toRow` it changes nothing; and with `n > 0`,
`removeConfigItemRows(rows)` for the list `[n-1, n]` leaves every row in place, the
existing row `n-1` included. -/
theorem removeConfigItemRowsRange_end_out_of_range (s : InputMapConfigModel E N)
    (fromRow toRow : Int) :
    ((s.m_configItems.length : Int) ≤ toRow → s.removeConfigItemRowsRange fromRow toRow = s)
      ∧ (0 ≤ fromRow → fromRow ≤ toRow → toRow < (s.m_configItems.length : Int) →
          (s.removeConfigItemRowsRange fromRow toRow).m_configItems
            = s.m_configItems.take fromRow.toNat ++ s.m_configItems.drop (toRow.toNat + 1))
      ∧ (fromRow > toRow → s.removeConfigItemRowsRange fromRow toRow = s)
      ∧ (0 < s.m_configItems.length →
          (s.removeConfigItemRows
              [(s.m_configItems.length : Int) - 1, (s.m_configItems.length : Int)]).m_configItems
            = s.m_configItems) := by
  refine ⟨?_, ?_, ?_, ?_⟩
  · intro h
    simp only [removeConfigItemRowsRange, removeRows_of_length_le _ _ _ h]
  · intro h0 h1 h2
    exact removeRows_eq _ _ _ h0 h1 h2
  · intro h
    simp only [removeConfigItemRowsRange, removeRows, h, if_true]
  · intro _
    have hsort : List.insertionSort (· ≥ ·)
        [(s.m_configItems.length : Int) - 1, (s.m_configItems.length : Int)]
        = [(s.m_configItems.length : Int), (s.m_configItems.length : Int) - 1] := by
      simp [List.insertionSort, List.orderedInsert]
    have hstep : ¬ ((s.m_configItems.length : Int) - ((s.m_configItems.length : Int) - 1) > 1) := by
      omega
    unfold removeConfigItemRows
    rw [hsort]
    simp only [List.isEmpty_cons, Bool.false_eq_true, if_false, List.foldl_cons,
      List.foldl_nil, removeStep, hstep, configureInputMapper_items,
      removeConfigItemRowsRange]
    exact removeRows_of_length_le _ _ _ (le_refl _)

theorem removeConfigItemRowsRange_end_out_of_range_witness :
    sampleModel.removeConfigItemRowsRange 4 5 = sampleModel
      ∧ (sampleModel.removeConfigItemRowsRange 1 3).m_configItems = [⟨[2], 10⟩, ⟨[1], 14⟩]
      ∧ sampleModel.removeConfigItemRowsRange 3 1 = sampleModel
      ∧ (sampleModel.removeConfigItemRows [4, 5]).m_configItems = sampleModel.m_configItems :=
  ⟨(removeConfigItemRowsRange_end_out_of_range sampleModel 4 5).1 (by decide),
    (removeConfigItemRowsRange_end_out_of_range sampleModel 1 3).2.1
      (by decide) (by decide) (by decide),
    (removeConfigItemRowsRange_end_out_of_range sampleModel 3 1).2.2.1 (by decide),
    (removeConfigItemRowsRange_end_out_of_range sampleModel 0 0).2.2.2 (by decide)⟩

end InputMapConfigModel

/-! ## The connection map -/

namespace Spotlight

variable {D P : Type} [LinearOrder D] [DecidableEq P]

theorem connectSpotlightDevice_wf (s : Spotlight D P) (id : D) (path : P)
    (h : s.m_deviceConnections.WF) : (s.connectSpotlightDevice id path).m_deviceConnections.WF := by
  unfold connectSpotlightDevice
  split_ifs
  · exact h
  · cases s.m_deviceConnections.find id with
    | some dc => exact StdMap.insertOrAssign_wf _ _ _ h
    | none => exact StdMap.emplace_wf _ _ _ h

theorem removeDeviceConnection_wf (s : Spotlight D P) (path : P)
    (h : s.m_deviceConnections.WF) : (s.removeDeviceConnection path).m_deviceConnections.WF := by
  unfold removeDeviceConnection
  have hfold : ∀ (l : List (D × DeviceConnection D P)) (m : StdMap D (DeviceConnection D P)),
      m.WF → (l.foldl
        (fun m p =>
          if path ∈ p.2.subs then
            if (p.2.subs.erase path).isEmpty then m.erase p.1
            else m.insertOrAssign p.1 { p.2 with subs := p.2.subs.erase path }
          else m) m).WF := by
    intro l
    induction l with
    | nil => intro m hm; exact hm
    | cons p l ih =>
      intro m hm
      rw [List.foldl_cons]
      apply ih
      split_ifs
      · exact StdMap.erase_wf _ _ hm
      · exact StdMap.insertOrAssign_wf _ _ _ hm
      · exact hm
  exact hfold _ _ h

theorem step_wf (s : Spotlight D P) (op : SpotlightOp D P) (h : s.m_deviceConnections.WF) :
    (s.step op).m_deviceConnections.WF := by
  cases op with
  | connect id path => exact connectSpotlightDevice_wf s id path h
  | disconnect path => exact removeDeviceConnection_wf s path h

theorem foldl_step_wf (ops : List (SpotlightOp D P)) (s : Spotlight D P)
    (h : s.m_deviceConnections.WF) : (ops.foldl step s).m_deviceConnections.WF := by
  induction ops generalizing s with
  | nil => exact h
  | cons op ops ih => exact ih _ (step_wf s op h)

/-- C5: in every state that a sequence of connect and disconnect operations produces
from the initial state, the keys of `m_deviceConnections` ascend strictly, so no two
entries have the same `DeviceId`: the key list has no duplicate and at most one
entry carries any given `DeviceId`. -/
theorem deviceConnections_unique_per_deviceId (ops : List (SpotlightOp D P)) :
    (run ops).m_deviceConnections.WF
      ∧ (run ops).m_deviceConnections.keys.Nodup
      ∧ ∀ id : D, ((run ops).m_deviceConnections.entries.filter
          (fun p => decide (p.1 = id))).length ≤ 1 := by
  have hwf : (run ops).m_deviceConnections.WF := foldl_step_wf ops init StdMap.empty_wf
  have hnd : (run ops).m_deviceConnections.keys.Nodup := hwf.nodup
  refine ⟨hwf, hnd, ?_⟩
  intro id
  have h1 : ∀ l : List (D × DeviceConnection D P),
      (l.filter (fun p => decide (p.1 = id))).length = (l.map Prod.fst).count id := by
    intro l
    induction l with
    | nil => rfl
    | cons p l ih =>
      by_cases e : p.1 = id <;> simp [List.filter_cons, List.count_cons, e, ih]
  rw [h1]
  exact List.nodup_iff_count_le_one.1 hnd id

end Spotlight

end Projecteur
